import Mathlib

/-!
Shallow embedding of `src/lib/table.rs` (crate `ultimattt`): a set-associative
transposition table with a worst-of-window eviction policy, a binary dump and
restore format, and a concurrent variant whose sequential behaviour is modelled
here (its seqlock read protocol is modelled for single-threaded executions:
counters never change between the two loads, and an odd counter would make the
read loop spin forever, which we model as divergence).

Machine integers are modelled as `Nat` with explicit truncation where the Rust
types wrap: `hash()` returns a `u64`, so every call site of `.hash()` is
`hash64`, i.e. the raw value modulo `2^64`; tag bytes are `x % 256`; the
`AtomicU32` sequence counters wrap modulo `2^32`.  Rust panics (remainder by
zero, `Option::unwrap` on `None`, out-of-bounds index) are modelled by the
functions returning `none` at top level.
-/

namespace TTab

/-- Statistics triple, mirror of `struct Stats` (table.rs lines 11-16). -/
structure Stats where
  lookups : Nat
  hits : Nat
  stores : Nat
deriving DecidableEq, Repr

/-- `Stats::merge` (table.rs lines 19-25): field-wise sum. -/
def Stats.merge (a b : Stats) : Stats :=
  ⟨a.lookups + b.lookups, a.hits + b.hits, a.stores + b.stores⟩

/-- The `Entry` trait (table.rs lines 39-43) together with `Default`
(the bound `E: Entry + Default + Clone`): a signature, a validity flag, a
priority comparison, and a default element used to initialise fresh slots.
`hash` is an arbitrary `Nat`; the `u64` return type of the Rust method is
modelled by truncating at every call site (see `hash64`). -/
structure EntryOps (E : Type) where
  hash : E → Nat
  valid : E → Bool
  better_than : E → E → Bool
  dflt : E

/-- Value of `e.hash()` in Rust: the signature as a `u64`. -/
def hash64 {E : Type} (ops : EntryOps E) (e : E) : Nat :=
  ops.hash e % 2 ^ 64

/-- `TranspositionTable` (table.rs lines 28-37): a tag byte array `index`,
a record array `entries`, and statistics. -/
structure Table (E : Type) where
  index : List Nat
  entries : List E
  stats : Stats
deriving DecidableEq, Repr

/-- `TranspositionTable::with_entries` (table.rs lines 95-102): arrays of
default elements (`u8` default is `0`), zeroed statistics. -/
def withEntries {E : Type} (ops : EntryOps E) (len : Nat) : Table E :=
  ⟨List.replicate len 0, List.replicate len ops.dflt, ⟨0, 0, 0⟩⟩

/-- `TranspositionTable::with_memory` (table.rs lines 90-93): capacity is the
byte budget divided by the per-record footprint `1 + size_of::<E>()`;
`sizeE` stands for `size_of::<E>()`. -/
def withMemory {E : Type} (ops : EntryOps E) (sizeE bytes : Nat) : Table E :=
  withEntries ops (bytes / (1 + sizeE))

/-- Loop body of `TranspositionTable::lookup` (table.rs lines 107-116),
iterating over the probe offsets `js` (the Rust `for j in 0..N`).
Returns `none` on the remainder-by-zero panic when the table is empty,
`some none` when the window is exhausted without a match, and
`some (some e)` on the first slot whose tag matches the low byte of `h`
and whose record is valid with full signature `h`. -/
def lookupGo {E : Type} (ops : EntryOps E) (index : List Nat) (entries : List E)
    (h base : Nat) : List Nat → Option (Option E)
  | [] => some none
  | j :: js =>
    if entries.length = 0 then none
    else
      let i := (base + j) % entries.length
      if index.getD i 0 ≠ h % 256 then
        lookupGo ops index entries h base js
      else if ops.valid (entries.getD i ops.dflt) = true ∧
          hash64 ops (entries.getD i ops.dflt) = h then
        some (some (entries.getD i ops.dflt))
      else
        lookupGo ops index entries h base js

/-- `TranspositionTable::lookup` (table.rs lines 104-118).  Increments the
lookup counter, scans the probe window, and on success returns a copy of the
record and increments the hit counter.  `none` models the panic of an empty
table probed with `N > 0`. -/
def lookup {E : Type} (ops : EntryOps E) (N : Nat) (t : Table E) (h : Nat) :
    Option (Option E × Table E) :=
  let t1 : Table E := ⟨t.index, t.entries,
    ⟨t.stats.lookups + 1, t.stats.hits, t.stats.stores⟩⟩
  match lookupGo ops t.index t.entries h h (List.range N) with
  | none => none
  | some none => some (none, t1)
  | some (some e) =>
    some (some e, ⟨t1.index, t1.entries,
      ⟨t1.stats.lookups, t1.stats.hits + 1, t1.stats.stores⟩⟩)

/-- Victim-selection loop of `TranspositionTable::store` (table.rs lines
122-136): scan the probe offsets `js`; select immediately the first slot that
is invalid or holds the stored signature `eh`; otherwise keep the worse of the
tracked candidate and the current slot.  `none` models the remainder-by-zero
panic on an empty table; `some worst` is the `worst` variable at loop exit. -/
def storeGo {E : Type} (ops : EntryOps E) (entries : List E) (eh base : Nat) :
    Option Nat → List Nat → Option (Option Nat)
  | worst, [] => some worst
  | worst, j :: js =>
    if entries.length = 0 then none
    else
      let i := (base + j) % entries.length
      let ei := entries.getD i ops.dflt
      if ¬ ops.valid ei = true ∨ hash64 ops ei = eh then
        some (some i)
      else
        match worst with
        | some w =>
          if ops.better_than (entries.getD w ops.dflt) ei = true then
            storeGo ops entries eh base (some i) js
          else
            storeGo ops entries eh base (some w) js
        | none => storeGo ops entries eh base (some i) js

/-- `TranspositionTable::store` (table.rs lines 120-146).  Runs the victim
scan; `none` models the panics (empty table with `N > 0`, or `worst.unwrap()`
with `N = 0`).  If the victim is invalid or `ent.better_than(victim)`, the tag
and record are overwritten, the store counter is incremented and `true` is
returned; otherwise `false` is returned with the table unchanged. -/
def store {E : Type} (ops : EntryOps E) (N : Nat) (t : Table E) (e : E) :
    Option (Bool × Table E) :=
  let eh := hash64 ops e
  match storeGo ops t.entries eh eh none (List.range N) with
  | none => none
  | some none => none
  | some (some idx) =>
    if ¬ ops.valid (t.entries.getD idx ops.dflt) = true ∨
        ops.better_than e (t.entries.getD idx ops.dflt) = true then
      some (true, ⟨t.index.set idx (ops.hash e % 256), t.entries.set idx e,
        ⟨t.stats.lookups, t.stats.hits, t.stats.stores + 1⟩⟩)
    else
      some (false, t)

/-- Concrete record type used to exercise the table in witnesses: a signature,
a validity flag and a quality used by the priority comparison. -/
structure TEnt where
  sig : Nat
  ok : Bool
  q : Nat
deriving DecidableEq, Repr

/-- Concrete `Entry` implementation for `TEnt`: `better_than` prefers higher
quality; the default record is invalid. -/
def tops : EntryOps TEnt :=
  ⟨TEnt.sig, TEnt.ok, fun a b => b.q < a.q, ⟨0, false, 0⟩⟩

/-- Claim C8: if `store` returns `false`, the table is unchanged — every tag
byte, every record slot, and all statistics counters keep their values; the
`false` return is a boolean outcome that performs no mutation. -/
theorem store_reject_no_mutation {E : Type} (ops : EntryOps E) (N : Nat)
    (t t' : Table E) (e : E) (hst : store ops N t e = some (false, t')) :
    t' = t := by
  unfold store at hst
  cases hgo : storeGo ops t.entries (hash64 ops e) (hash64 ops e) none
      (List.range N) with
  | none => simp [hgo] at hst
  | some w =>
    cases w with
    | none => simp [hgo] at hst
    | some idx =>
      simp only [hgo] at hst
      split at hst
      · simp at hst
      · simp only [Option.some.injEq, Prod.mk.injEq] at hst
        exact hst.2.symm

/-- Witness for C8 at a concrete rejected store: a higher-quality occupant is
already present, the second store returns `false` and the table is unchanged. -/
theorem store_reject_no_mutation_witness :
    store tops 4
      ⟨[0, 0, 0, 0, 0, 5, 0, 0], [⟨0, false, 0⟩, ⟨0, false, 0⟩, ⟨0, false, 0⟩,
        ⟨0, false, 0⟩, ⟨0, false, 0⟩, ⟨5, true, 9⟩, ⟨0, false, 0⟩,
        ⟨0, false, 0⟩], ⟨0, 0, 1⟩⟩ ⟨5, true, 1⟩ =
      some (false, ⟨[0, 0, 0, 0, 0, 5, 0, 0], [⟨0, false, 0⟩, ⟨0, false, 0⟩,
        ⟨0, false, 0⟩, ⟨0, false, 0⟩, ⟨0, false, 0⟩, ⟨5, true, 9⟩,
        ⟨0, false, 0⟩, ⟨0, false, 0⟩], ⟨0, 0, 1⟩⟩) ∧
    (⟨[0, 0, 0, 0, 0, 5, 0, 0], [⟨0, false, 0⟩, ⟨0, false, 0⟩, ⟨0, false, 0⟩,
        ⟨0, false, 0⟩, ⟨0, false, 0⟩, ⟨5, true, 9⟩, ⟨0, false, 0⟩,
        ⟨0, false, 0⟩], ⟨0, 0, 1⟩⟩ : Table TEnt) =
      ⟨[0, 0, 0, 0, 0, 5, 0, 0], [⟨0, false, 0⟩, ⟨0, false, 0⟩, ⟨0, false, 0⟩,
        ⟨0, false, 0⟩, ⟨0, false, 0⟩, ⟨5, true, 9⟩, ⟨0, false, 0⟩,
        ⟨0, false, 0⟩], ⟨0, 0, 1⟩⟩ :=
  ⟨by decide, store_reject_no_mutation tops 4 _ _ ⟨5, true, 1⟩ (by decide)⟩


/-- Spec-side restatement of claim C1's immediate-selection rule: the first
probe offset in `js` whose slot is invalid or already holds signature `eh`,
mapped to its slot index. -/
def earlyHitL {E : Type} (ops : EntryOps E) (entries : List E) (eh base : Nat) :
    List Nat → Option Nat
  | [] => none
  | j :: js =>
    if ¬ ops.valid (entries.getD ((base + j) % entries.length) ops.dflt) = true ∨
        hash64 ops (entries.getD ((base + j) % entries.length) ops.dflt) = eh then
      some ((base + j) % entries.length)
    else earlyHitL ops entries eh base js

/-- Spec-side restatement of claim C1's fallback rule: the occupied slot left
worst by repeated `betterThan` comparisons over the probe offsets `js`,
starting from the tracked candidate `w`. -/
def worstFoldL {E : Type} (ops : EntryOps E) (entries : List E) (base : Nat) :
    Option Nat → List Nat → Option Nat
  | w, [] => w
  | w, j :: js =>
    match w with
    | none => worstFoldL ops entries base (some ((base + j) % entries.length)) js
    | some wv =>
      if ops.better_than (entries.getD wv ops.dflt)
          (entries.getD ((base + j) % entries.length) ops.dflt) = true then
        worstFoldL ops entries base (some ((base + j) % entries.length)) js
      else worstFoldL ops entries base (some wv) js

/-- Spec-side victim of claim C1: the first invalid-or-same-signature slot of
the probe window `{(base + j) % len : j < N}` if one exists, otherwise the
worst occupied slot of the whole window. -/
def victimSpec {E : Type} (ops : EntryOps E) (entries : List E)
    (eh base N : Nat) : Option Nat :=
  match earlyHitL ops entries eh base (List.range N) with
  | some i => some i
  | none => worstFoldL ops entries base none (List.range N)

lemma storeGo_eq_spec {E : Type} (ops : EntryOps E) (entries : List E)
    (eh base : Nat) (hlen : 0 < entries.length) (js : List Nat) :
    ∀ w, storeGo ops entries eh base w js =
      some (match earlyHitL ops entries eh base js with
            | some i => some i
            | none => worstFoldL ops entries base w js) := by
  induction js with
  | nil => intro w; rfl
  | cons j js ih =>
    intro w
    by_cases hc : ¬ ops.valid
          (entries.getD ((base + j) % entries.length) ops.dflt) = true ∨
        hash64 ops (entries.getD ((base + j) % entries.length) ops.dflt) = eh
    · simp only [storeGo, earlyHitL, if_neg (Nat.pos_iff_ne_zero.mp hlen),
        if_pos hc]
    · cases w with
      | none =>
        simp only [storeGo, earlyHitL, worstFoldL,
          if_neg (Nat.pos_iff_ne_zero.mp hlen), if_neg hc]
        exact ih _
      | some wv =>
        simp only [storeGo, earlyHitL, worstFoldL,
          if_neg (Nat.pos_iff_ne_zero.mp hlen), if_neg hc]
        by_cases hb : ops.better_than (entries.getD wv ops.dflt)
            (entries.getD ((base + j) % entries.length) ops.dflt) = true
        · simp only [if_pos hb]; exact ih _
        · simp only [if_neg hb]; exact ih _

lemma worstFoldL_isSome {E : Type} (ops : EntryOps E) (entries : List E)
    (base : Nat) :
    ∀ (js : List Nat) (wv : Nat),
      ∃ u, worstFoldL ops entries base (some wv) js = some u := by
  intro js
  induction js with
  | nil => intro wv; exact ⟨wv, rfl⟩
  | cons j js ih =>
    intro wv
    by_cases hb : ops.better_than (entries.getD wv ops.dflt)
        (entries.getD ((base + j) % entries.length) ops.dflt) = true
    · simpa only [worstFoldL, if_pos hb] using ih _
    · simpa only [worstFoldL, if_neg hb] using ih _

/-- Claim C1: `store e` picks its victim by scanning the probe window
`{(signature(e)+j) mod len : j < N}` in order, selecting immediately the first
slot that is invalid or holds `e`'s full signature, and otherwise the occupied
slot left worst by repeated `betterThan` comparisons; it writes the low byte of
the signature into the victim's tag, a copy of `e` into the victim's slot and
increments the store counter, returning `true`, exactly when the victim is
invalid or `e.betterThan(victim)`; otherwise it returns `false` and leaves the
table unchanged. -/
theorem store_characterisation {E : Type} (ops : EntryOps E) (N : Nat)
    (t : Table E) (e : E) (hN : 0 < N) (hlen : 0 < t.entries.length) :
    ∃ idx, victimSpec ops t.entries (hash64 ops e) (hash64 ops e) N = some idx ∧
      ((¬ ops.valid (t.entries.getD idx ops.dflt) = true ∨
          ops.better_than e (t.entries.getD idx ops.dflt) = true) →
        store ops N t e = some (true,
          ⟨t.index.set idx (ops.hash e % 256), t.entries.set idx e,
           ⟨t.stats.lookups, t.stats.hits, t.stats.stores + 1⟩⟩)) ∧
      (¬ (¬ ops.valid (t.entries.getD idx ops.dflt) = true ∨
          ops.better_than e (t.entries.getD idx ops.dflt) = true) →
        store ops N t e = some (false, t)) := by
  have hgo := storeGo_eq_spec ops t.entries (hash64 ops e) (hash64 ops e)
    hlen (List.range N) none
  have hvic : ∃ idx, victimSpec ops t.entries (hash64 ops e) (hash64 ops e) N
      = some idx := by
    unfold victimSpec
    cases hEH : earlyHitL ops t.entries (hash64 ops e) (hash64 ops e)
        (List.range N) with
    | some i => exact ⟨i, rfl⟩
    | none =>
      cases hr : List.range N with
      | nil =>
        rw [List.range_eq_nil] at hr
        omega
      | cons j js =>
        simp only [worstFoldL]
        exact worstFoldL_isSome ops t.entries (hash64 ops e) js _
  obtain ⟨idx, hidx⟩ := hvic
  have hgo' : storeGo ops t.entries (hash64 ops e) (hash64 ops e) none
      (List.range N) = some (some idx) := by
    rw [hgo]
    unfold victimSpec at hidx
    cases hEH : earlyHitL ops t.entries (hash64 ops e) (hash64 ops e)
        (List.range N) with
    | some i => rw [hEH] at hidx; simpa using hidx
    | none => rw [hEH] at hidx; simpa using hidx
  refine ⟨idx, hidx, ?_, ?_⟩
  · intro hacc
    unfold store
    simp only [hgo', if_pos hacc]
  · intro hrej
    unfold store
    simp only [hgo', if_neg hrej]

/-- Witness for C1 at a concrete input: a full window of valid, unrelated
occupants, where the victim is the worst occupant and the new record wins. -/
theorem store_characterisation_witness :
    ∃ idx, victimSpec tops
        [⟨0, false, 0⟩, ⟨257, true, 7⟩, ⟨514, true, 3⟩, ⟨771, true, 5⟩]
        (hash64 tops ⟨1, true, 4⟩) (hash64 tops ⟨1, true, 4⟩) 3 = some idx ∧
      ((¬ tops.valid (List.getD
            [⟨0, false, 0⟩, ⟨257, true, 7⟩, ⟨514, true, 3⟩, ⟨771, true, 5⟩]
            idx tops.dflt) = true ∨
          tops.better_than ⟨1, true, 4⟩ (List.getD
            [⟨0, false, 0⟩, ⟨257, true, 7⟩, ⟨514, true, 3⟩, ⟨771, true, 5⟩]
            idx tops.dflt) = true) →
        store tops 3 ⟨[0, 1, 2, 3],
          [⟨0, false, 0⟩, ⟨257, true, 7⟩, ⟨514, true, 3⟩, ⟨771, true, 5⟩],
          ⟨0, 0, 0⟩⟩ ⟨1, true, 4⟩ = some (true,
          ⟨[0, 1, 2, 3].set idx (tops.hash ⟨1, true, 4⟩ % 256),
           (List.set
            [⟨0, false, 0⟩, ⟨257, true, 7⟩, ⟨514, true, 3⟩, ⟨771, true, 5⟩]
            idx ⟨1, true, 4⟩), ⟨0, 0, 0 + 1⟩⟩)) ∧
      (¬ (¬ tops.valid (List.getD
            [⟨0, false, 0⟩, ⟨257, true, 7⟩, ⟨514, true, 3⟩, ⟨771, true, 5⟩]
            idx tops.dflt) = true ∨
          tops.better_than ⟨1, true, 4⟩ (List.getD
            [⟨0, false, 0⟩, ⟨257, true, 7⟩, ⟨514, true, 3⟩, ⟨771, true, 5⟩]
            idx tops.dflt) = true) →
        store tops 3 ⟨[0, 1, 2, 3],
          [⟨0, false, 0⟩, ⟨257, true, 7⟩, ⟨514, true, 3⟩, ⟨771, true, 5⟩],
          ⟨0, 0, 0⟩⟩ ⟨1, true, 4⟩ = some (false, ⟨[0, 1, 2, 3],
          [⟨0, false, 0⟩, ⟨257, true, 7⟩, ⟨514, true, 3⟩, ⟨771, true, 5⟩],
          ⟨0, 0, 0⟩⟩)) :=
  store_characterisation tops 3
    ⟨[0, 1, 2, 3],
     [⟨0, false, 0⟩, ⟨257, true, 7⟩, ⟨514, true, 3⟩, ⟨771, true, 5⟩],
     ⟨0, 0, 0⟩⟩ ⟨1, true, 4⟩ (by decide) (by decide)

lemma getD_set_self {A : Type} (l : List A) (i : Nat) (a d : A)
    (h : i < l.length) : (l.set i a).getD i d = a := by
  simp [List.getD_eq_getElem?_getD, List.getElem?_set_self, h]

lemma getD_set_of_ne {A : Type} (l : List A) (i j : Nat) (a d : A)
    (h : i ≠ j) : (l.set i a).getD j d = l.getD j d := by
  simp [List.getD_eq_getElem?_getD, List.getElem?_set_ne h]

lemma getD_replicate {A : Type} (n i : Nat) (a : A) :
    (List.replicate n a).getD i a = a := by
  simp [List.getD]

lemma storeGo_some_spec {E : Type} (ops : EntryOps E) (entries : List E)
    (eh base : Nat) :
    ∀ (js : List Nat) (w : Option Nat) (idx : Nat),
      storeGo ops entries eh base w js = some (some idx) →
      (0 < entries.length ∧ ∃ j ∈ js, idx = (base + j) % entries.length) ∨
        w = some idx := by
  intro js
  induction js with
  | nil =>
    intro w idx h
    right
    simpa [storeGo] using h
  | cons j js ih =>
    intro w idx h
    by_cases h0 : entries.length = 0
    · simp [storeGo, h0] at h
    · have hlen : 0 < entries.length := Nat.pos_of_ne_zero h0
      by_cases hc : ¬ ops.valid
            (entries.getD ((base + j) % entries.length) ops.dflt) = true ∨
          hash64 ops (entries.getD ((base + j) % entries.length) ops.dflt) = eh
      · simp only [storeGo, if_neg h0, if_pos hc, Option.some.injEq] at h
        exact Or.inl ⟨hlen, j, List.mem_cons_self j js, h.symm⟩
      · cases w with
        | none =>
          simp only [storeGo, if_neg h0, if_neg hc] at h
          rcases ih _ _ h with ⟨_, j', hj', hidx⟩ | hw
          · exact Or.inl ⟨hlen, j', List.mem_cons_of_mem j hj', hidx⟩
          · exact Or.inl ⟨hlen, j, List.mem_cons_self j js,
              (Option.some.inj hw).symm⟩
        | some wv =>
          simp only [storeGo, if_neg h0, if_neg hc] at h
          by_cases hb : ops.better_than (entries.getD wv ops.dflt)
              (entries.getD ((base + j) % entries.length) ops.dflt) = true
          · rw [if_pos hb] at h
            rcases ih _ _ h with ⟨_, j', hj', hidx⟩ | hw
            · exact Or.inl ⟨hlen, j', List.mem_cons_of_mem j hj', hidx⟩
            · exact Or.inl ⟨hlen, j, List.mem_cons_self j js,
                (Option.some.inj hw).symm⟩
          · rw [if_neg hb] at h
            rcases ih _ _ h with ⟨_, j', hj', hidx⟩ | hw
            · exact Or.inl ⟨hlen, j', List.mem_cons_of_mem j hj', hidx⟩
            · exact Or.inr hw

lemma lookupGo_found {E : Type} (ops : EntryOps E) (index : List Nat)
    (entries : List E) (h base : Nat) (hlen : 0 < entries.length) :
    ∀ js : List Nat,
      (∃ j ∈ js, index.getD ((base + j) % entries.length) 0 = h % 256 ∧
        ops.valid (entries.getD ((base + j) % entries.length) ops.dflt) = true ∧
        hash64 ops (entries.getD ((base + j) % entries.length) ops.dflt) = h) →
      ∃ r, lookupGo ops index entries h base js = some (some r) ∧
        ops.valid r = true ∧ hash64 ops r = h := by
  intro js
  induction js with
  | nil =>
    rintro ⟨j, hj, -⟩
    simp at hj
  | cons j js ih =>
    rintro ⟨j', hj', htag, hval, hhash⟩
    have h0 : ¬ entries.length = 0 := Nat.pos_iff_ne_zero.mp hlen
    by_cases htagj : index.getD ((base + j) % entries.length) 0 = h % 256
    · by_cases hslot : ops.valid
            (entries.getD ((base + j) % entries.length) ops.dflt) = true ∧
          hash64 ops (entries.getD ((base + j) % entries.length) ops.dflt) = h
      · exact ⟨entries.getD ((base + j) % entries.length) ops.dflt,
          by simp only [lookupGo, if_neg h0, if_neg (not_not_intro htagj),
            if_pos hslot], hslot.1, hslot.2⟩
      · have hj'' : j' ∈ js := by
          rcases List.mem_cons.mp hj' with rfl | hmem
          · exact absurd ⟨hval, hhash⟩ hslot
          · exact hmem
        obtain ⟨r, hr, hrv, hrh⟩ := ih ⟨j', hj'', htag, hval, hhash⟩
        exact ⟨r, by simp only [lookupGo, if_neg h0,
          if_neg (not_not_intro htagj), if_neg hslot]; exact hr, hrv, hrh⟩
    · have hj'' : j' ∈ js := by
        rcases List.mem_cons.mp hj' with rfl | hmem
        · exact absurd htag htagj
        · exact hmem
      obtain ⟨r, hr, hrv, hrh⟩ := ih ⟨j', hj'', htag, hval, hhash⟩
      exact ⟨r, by simp only [lookupGo, if_neg h0, if_pos htagj]; exact hr,
        hrv, hrh⟩

lemma dvd_256_two_pow_64 : (256 : Nat) ∣ 2 ^ 64 := ⟨2 ^ 56, by norm_num⟩

lemma hash64_mod_256 {E : Type} (ops : EntryOps E) (e : E) :
    hash64 ops e % 256 = ops.hash e % 256 := by
  unfold hash64
  exact Nat.mod_mod_of_dvd _ dvd_256_two_pow_64

/-- Claim C2: if `store e` returns `true` on a table of positive capacity,
an immediately following `lookup(signature(e))` returns some record whose
signature equals `signature(e)` and increments the hit counter. -/
theorem store_then_lookup_hits {E : Type} (ops : EntryOps E) (N : Nat)
    (t t' : Table E) (e : E)
    (hwf : t.index.length = t.entries.length)
    (hv : ops.valid e = true)
    (hst : store ops N t e = some (true, t')) :
    ∃ r t'', lookup ops N t' (hash64 ops e) = some (some r, t'') ∧
      hash64 ops r = hash64 ops e ∧
      t''.stats.hits = t'.stats.hits + 1 := by
  unfold store at hst
  cases hgo : storeGo ops t.entries (hash64 ops e) (hash64 ops e) none
      (List.range N) with
  | none => simp [hgo] at hst
  | some w =>
    cases w with
    | none => simp [hgo] at hst
    | some idx =>
      simp only [hgo] at hst
      split at hst
      case isFalse => simp at hst
      case isTrue hacc =>
      simp only [Option.some.injEq, Prod.mk.injEq, true_and] at hst
      rcases storeGo_some_spec ops t.entries (hash64 ops e) (hash64 ops e)
          (List.range N) none idx hgo with ⟨hlen, j, hj, hidx⟩ | hw
      · have hidxlt : idx < t.entries.length := hidx ▸ Nat.mod_lt _ hlen
        have hlen' : 0 < t'.entries.length := by
          rw [← hst, List.length_set]; exact hlen
        have hfound := lookupGo_found ops t'.index t'.entries (hash64 ops e)
          (hash64 ops e) hlen' (List.range N)
          ⟨j, hj, ?_, ?_, ?_⟩
        · obtain ⟨r, hr, hrv, hrh⟩ := hfound
          have hlk : lookup ops N t' (hash64 ops e) =
              some (some r, ⟨t'.index, t'.entries,
                ⟨t'.stats.lookups + 1, t'.stats.hits + 1, t'.stats.stores⟩⟩) := by
            unfold lookup
            simp only [hr]
          exact ⟨r, _, hlk, hrh, rfl⟩
        · rw [← hst]
          simp only [List.length_set]
          rw [← hidx, getD_set_self _ _ _ _ (hwf ▸ hidxlt), hash64_mod_256]
        · rw [← hst]
          simp only [List.length_set]
          rw [← hidx, getD_set_self _ _ _ _ hidxlt]
          exact hv
        · rw [← hst]
          simp only [List.length_set]
          rw [← hidx, getD_set_self _ _ _ _ hidxlt]
      · simp at hw

/-- Witness for C2: store signature 5 into a fresh 8-slot table, then look the
signature up again. -/
theorem store_then_lookup_hits_witness :
    (∃ r t'', lookup tops 4
        ⟨[0, 0, 0, 0, 0, 5, 0, 0], [⟨0, false, 0⟩, ⟨0, false, 0⟩,
          ⟨0, false, 0⟩, ⟨0, false, 0⟩, ⟨0, false, 0⟩, ⟨5, true, 1⟩,
          ⟨0, false, 0⟩, ⟨0, false, 0⟩], ⟨0, 0, 1⟩⟩
        (hash64 tops ⟨5, true, 1⟩) = some (some r, t'') ∧
      hash64 tops r = hash64 tops ⟨5, true, 1⟩ ∧
      t''.stats.hits = (⟨[0, 0, 0, 0, 0, 5, 0, 0], [⟨0, false, 0⟩,
        ⟨0, false, 0⟩, ⟨0, false, 0⟩, ⟨0, false, 0⟩, ⟨0, false, 0⟩,
        ⟨5, true, 1⟩, ⟨0, false, 0⟩, ⟨0, false, 0⟩], ⟨0, 0, 1⟩⟩ :
          Table TEnt).stats.hits + 1) :=
  store_then_lookup_hits tops 4 (withEntries tops 8) _ ⟨5, true, 1⟩
    (by decide) (by decide) (by decide)

lemma storeGo_head_hit {E : Type} (ops : EntryOps E) (entries : List E)
    (eh base j : Nat) (js : List Nat) (h0 : ¬ entries.length = 0)
    (hc : ¬ ops.valid (entries.getD ((base + j) % entries.length) ops.dflt)
        = true ∨
      hash64 ops (entries.getD ((base + j) % entries.length) ops.dflt) = eh) :
    storeGo ops entries eh base none (j :: js) =
      some (some ((base + j) % entries.length)) := by
  simp only [storeGo, if_neg h0, if_pos hc]

lemma range_of_pos (N : Nat) (hN : 0 < N) :
    ∃ js, List.range N = 0 :: js := by
  obtain ⟨m, rfl⟩ : ∃ m, N = m + 1 := ⟨N - 1, by omega⟩
  exact ⟨(List.range m).map Nat.succ, List.range_succ_eq_map m⟩

lemma store_first_slot {E : Type} (ops : EntryOps E) (N : Nat) (t : Table E)
    (e : E) (hN : 0 < N) (hlen : 0 < t.entries.length)
    (hc : ¬ ops.valid (t.entries.getD (hash64 ops e % t.entries.length)
        ops.dflt) = true ∨
      hash64 ops (t.entries.getD (hash64 ops e % t.entries.length) ops.dflt)
        = hash64 ops e) :
    store ops N t e =
      if ¬ ops.valid (t.entries.getD (hash64 ops e % t.entries.length)
          ops.dflt) = true ∨
        ops.better_than e (t.entries.getD (hash64 ops e % t.entries.length)
          ops.dflt) = true then
        some (true,
          ⟨t.index.set (hash64 ops e % t.entries.length) (ops.hash e % 256),
           t.entries.set (hash64 ops e % t.entries.length) e,
           ⟨t.stats.lookups, t.stats.hits, t.stats.stores + 1⟩⟩)
      else some (false, t) := by
  obtain ⟨js, hr⟩ := range_of_pos N hN
  have h0 : ¬ t.entries.length = 0 := by omega
  have hgo := storeGo_head_hit ops t.entries (hash64 ops e) (hash64 ops e) 0
    js h0 (by simpa using hc)
  simp only [Nat.add_zero] at hgo
  unfold store
  rw [hr]
  simp only [hgo]

lemma store_fresh {E : Type} (ops : EntryOps E) (N len : Nat) (e : E)
    (hN : 0 < N) (hlen : 0 < len) (hd : ops.valid ops.dflt = false) :
    store ops N (withEntries ops len) e = some (true,
      ⟨(List.replicate len 0).set (hash64 ops e % len) (ops.hash e % 256),
       (List.replicate len ops.dflt).set (hash64 ops e % len) e,
       ⟨0, 0, 1⟩⟩) := by
  have hlen' : 0 < (withEntries ops len).entries.length := by
    simp [withEntries]; omega
  have hd' : ¬ ops.valid ((withEntries ops len).entries.getD
      (hash64 ops e % (withEntries ops len).entries.length) ops.dflt)
      = true := by
    simp only [withEntries, getD_replicate, hd]
    simp
  rw [store_first_slot ops N _ e hN hlen' (Or.inl hd'), if_pos (Or.inl hd')]
  simp [withEntries]

/-- Counterexample to claim C5 as stated: with two valid records `a`, `b` of
equal signature, `a.betterThan(b)`, and a probe window holding only invalid
slots (a fresh table), the first call `store(b)` already returns `true` — the
empty slot is filled — not `false` as the claim asserts for the
store-b-then-store-a order. -/
theorem store_pair_order_cex :
    (store tops 4 (withEntries tops 8) ⟨5, true, 1⟩).map Prod.fst = some true ∧
    tops.better_than ⟨5, true, 2⟩ ⟨5, true, 1⟩ = true ∧
    tops.valid ⟨5, true, 1⟩ = true ∧ tops.valid ⟨5, true, 2⟩ = true ∧
    hash64 tops ⟨5, true, 2⟩ = hash64 tops ⟨5, true, 1⟩ := by decide

lemma store_occupied_same_sig {E : Type} (ops : EntryOps E) (N : Nat)
    (t : Table E) (e occ : E) (hN : 0 < N) (hlen : 0 < t.entries.length)
    (hocc : t.entries.getD (hash64 ops e % t.entries.length) ops.dflt = occ)
    (hsig : hash64 ops occ = hash64 ops e)
    (hvocc : ops.valid occ = true) :
    store ops N t e =
      if ops.better_than e occ = true then
        some (true,
          ⟨t.index.set (hash64 ops e % t.entries.length) (ops.hash e % 256),
           t.entries.set (hash64 ops e % t.entries.length) e,
           ⟨t.stats.lookups, t.stats.hits, t.stats.stores + 1⟩⟩)
      else some (false, t) := by
  rw [store_first_slot ops N t e hN hlen (Or.inr (by rw [hocc]; exact hsig))]
  by_cases hb : ops.better_than e occ = true
  · rw [if_pos hb, if_pos (Or.inr (by rw [hocc]; exact hb))]
  · rw [if_neg hb, if_neg]
    rw [hocc]
    simp [hvocc, hb]

/-- Claim C5, amended: for valid records `a`, `b` with equal signature,
`a.betterThan(b)` and not `b.betterThan(a)`, starting from a fresh table whose
slots are all invalid: `store(b)` then `store(a)` returns `true` then `true`
(the empty slot is filled, then the same-signature occupant is displaced by
the better record) and leaves `a` as the occupant; `store(a)` then `store(b)`
returns `true` then `false` and also leaves `a` as the occupant. -/
theorem store_pair_order_amended {E : Type} (ops : EntryOps E) (N len : Nat)
    (a b : E) (hN : 0 < N) (hlen : 0 < len)
    (hd : ops.valid ops.dflt = false)
    (hva : ops.valid a = true) (hvb : ops.valid b = true)
    (hsig : hash64 ops a = hash64 ops b)
    (hab : ops.better_than a b = true)
    (hba : ops.better_than b a = false) :
    (∃ t1 t2, store ops N (withEntries ops len) b = some (true, t1) ∧
      store ops N t1 a = some (true, t2) ∧
      t2.entries.getD (hash64 ops a % len) ops.dflt = a) ∧
    (∃ u1, store ops N (withEntries ops len) a = some (true, u1) ∧
      store ops N u1 b = some (false, u1) ∧
      u1.entries.getD (hash64 ops a % len) ops.dflt = a) := by
  have hmod : hash64 ops a % len = hash64 ops b % len := by rw [hsig]
  have hltb : hash64 ops b % len < len := Nat.mod_lt _ hlen
  have hlta : hash64 ops a % len < len := hmod ▸ hltb
  constructor
  · have h1 := store_fresh ops N len b hN hlen hd
    have hlen1 : 0 < ((List.replicate len ops.dflt).set
        (hash64 ops b % len) b).length := by simp; omega
    have hlen1e : ((List.replicate len ops.dflt).set
        (hash64 ops b % len) b).length = len := by simp
    have hgd : ((List.replicate len ops.dflt).set (hash64 ops b % len) b).getD
        (hash64 ops a % ((List.replicate len ops.dflt).set
          (hash64 ops b % len) b).length) ops.dflt = b := by
      rw [hlen1e, hmod]
      exact getD_set_self _ _ _ _ (by simpa using hltb)
    have h2 := store_occupied_same_sig ops N
      ⟨(List.replicate len 0).set (hash64 ops b % len) (ops.hash b % 256),
       (List.replicate len ops.dflt).set (hash64 ops b % len) b, ⟨0, 0, 1⟩⟩
      a b hN hlen1 hgd hsig.symm hvb
    rw [if_pos hab] at h2
    refine ⟨_, _, h1, h2, ?_⟩
    simp only [hlen1e]
    exact getD_set_self _ _ _ _ (by simp; exact hlta)
  · have h1 := store_fresh ops N len a hN hlen hd
    have hlen1 : 0 < ((List.replicate len ops.dflt).set
        (hash64 ops a % len) a).length := by simp; omega
    have hlen1e : ((List.replicate len ops.dflt).set
        (hash64 ops a % len) a).length = len := by simp
    have hgd : ((List.replicate len ops.dflt).set (hash64 ops a % len) a).getD
        (hash64 ops b % ((List.replicate len ops.dflt).set
          (hash64 ops a % len) a).length) ops.dflt = a := by
      rw [hlen1e, ← hmod]
      exact getD_set_self _ _ _ _ (by simpa using hlta)
    have h2 := store_occupied_same_sig ops N
      ⟨(List.replicate len 0).set (hash64 ops a % len) (ops.hash a % 256),
       (List.replicate len ops.dflt).set (hash64 ops a % len) a, ⟨0, 0, 1⟩⟩
      b a hN hlen1 hgd hsig hva
    rw [if_neg (by simp [hba])] at h2
    refine ⟨_, h1, h2, ?_⟩
    exact getD_set_self _ _ _ _ (by simp; exact hlta)

/-- Witness for the amended C5 at concrete records of signature 5 and
qualities 2 and 1 on a fresh 8-slot table. -/
theorem store_pair_order_amended_witness :
    (∃ t1 t2, store tops 4 (withEntries tops 8) ⟨5, true, 1⟩
        = some (true, t1) ∧
      store tops 4 t1 ⟨5, true, 2⟩ = some (true, t2) ∧
      t2.entries.getD (hash64 tops ⟨5, true, 2⟩ % 8) tops.dflt
        = ⟨5, true, 2⟩) ∧
    (∃ u1, store tops 4 (withEntries tops 8) ⟨5, true, 2⟩ = some (true, u1) ∧
      store tops 4 u1 ⟨5, true, 1⟩ = some (false, u1) ∧
      u1.entries.getD (hash64 tops ⟨5, true, 2⟩ % 8) tops.dflt
        = ⟨5, true, 2⟩) :=
  store_pair_order_amended tops 4 8 ⟨5, true, 2⟩ ⟨5, true, 1⟩
    (by decide) (by decide) (by decide) (by decide) (by decide) (by decide)
    (by decide) (by decide)

lemma lookup_arrays {E : Type} (ops : EntryOps E) (N : Nat) (t : Table E)
    (h : Nat) (r : Option E) (t' : Table E)
    (hlk : lookup ops N t h = some (r, t')) :
    t'.index = t.index ∧ t'.entries = t.entries := by
  unfold lookup at hlk
  cases hgo : lookupGo ops t.index t.entries h h (List.range N) with
  | none => simp [hgo] at hlk
  | some o =>
    cases o with
    | none =>
      simp only [hgo, Option.some.injEq, Prod.mk.injEq] at hlk
      rw [← hlk.2]
      exact ⟨rfl, rfl⟩
    | some e0 =>
      simp only [hgo, Option.some.injEq, Prod.mk.injEq] at hlk
      rw [← hlk.2]
      exact ⟨rfl, rfl⟩

lemma store_some_cases {E : Type} (ops : EntryOps E) (N : Nat)
    (t t' : Table E) (b : Bool) (e : E)
    (hst : store ops N t e = some (b, t')) :
    (b = false ∧ t' = t) ∨
    (b = true ∧ ∃ idx, idx < t.entries.length ∧
      t'.index = t.index.set idx (ops.hash e % 256) ∧
      t'.entries = t.entries.set idx e ∧
      t'.stats = ⟨t.stats.lookups, t.stats.hits, t.stats.stores + 1⟩) := by
  unfold store at hst
  cases hgo : storeGo ops t.entries (hash64 ops e) (hash64 ops e) none
      (List.range N) with
  | none => simp [hgo] at hst
  | some w =>
    cases w with
    | none => simp [hgo] at hst
    | some idx =>
      simp only [hgo] at hst
      split at hst
      · right
        simp only [Option.some.injEq, Prod.mk.injEq] at hst
        rcases storeGo_some_spec ops t.entries (hash64 ops e) (hash64 ops e)
            (List.range N) none idx hgo with ⟨hlen, j, hj, hidx⟩ | hw
        · exact ⟨hst.1.symm, idx, hidx ▸ Nat.mod_lt _ hlen,
            by rw [← hst.2], by rw [← hst.2], by rw [← hst.2]⟩
        · simp at hw
      · left
        simp only [Option.some.injEq, Prod.mk.injEq] at hst
        exact ⟨hst.1.symm, hst.2.symm⟩

/-- The tag-consistency invariant of claim C6: every valid slot's tag byte is
the low byte of that slot's record signature. -/
def TagInv {E : Type} (ops : EntryOps E) (t : Table E) : Prop :=
  ∀ i, i < t.entries.length →
    ops.valid (t.entries.getD i ops.dflt) = true →
    t.index.getD i 0 = ops.hash (t.entries.getD i ops.dflt) % 256

/-- Tables reachable from a freshly constructed table by any sequence of
(non-panicking) `lookup` and `store` operations. -/
inductive Reach {E : Type} (ops : EntryOps E) (N : Nat) : Table E → Prop where
  | fresh (len : Nat) : Reach ops N (withEntries ops len)
  | lookupStep {t t' : Table E} {r : Option E} {h : Nat} :
      Reach ops N t → lookup ops N t h = some (r, t') → Reach ops N t'
  | storeStep {t t' : Table E} {b : Bool} {e : E} :
      Reach ops N t → store ops N t e = some (b, t') → Reach ops N t'

lemma reach_wf {E : Type} (ops : EntryOps E) (N : Nat)
    (hd : ops.valid ops.dflt = false) :
    ∀ t : Table E, Reach ops N t →
      t.index.length = t.entries.length ∧ TagInv ops t := by
  intro t hr
  induction hr with
  | fresh len =>
    refine ⟨by simp [withEntries], ?_⟩
    intro i hi hvalid
    unfold withEntries at hvalid
    rw [getD_replicate, hd] at hvalid
    cases hvalid
  | lookupStep hr hlk ih =>
    obtain ⟨hi, he⟩ := lookup_arrays _ _ _ _ _ _ hlk
    refine ⟨by rw [hi, he]; exact ih.1, ?_⟩
    intro i hlt hvalid
    rw [he] at hlt hvalid
    rw [hi, he]
    exact ih.2 i hlt hvalid
  | storeStep hr hst ih =>
    rcases store_some_cases _ _ _ _ _ _ hst with ⟨_, rfl⟩ | ⟨_, idx, hidx, hI, hE, _⟩
    · exact ih
    · refine ⟨by rw [hI, hE]; simp [ih.1], ?_⟩
      intro i hlt hvalid
      rw [hE, List.length_set] at hlt
      by_cases hii : i = idx
      · subst hii
        rw [hE, getD_set_self _ _ _ _ hlt] at hvalid ⊢
        rw [hI, getD_set_self _ _ _ _ (by rw [ih.1]; exact hlt)]
      · rw [hE, getD_set_of_ne _ _ _ _ _ (fun hh => hii hh.symm)] at hvalid ⊢
        rw [hI, getD_set_of_ne _ _ _ _ _ (fun hh => hii hh.symm)]
        exact ih.2 i hlt hvalid

/-- Claim C6: in every table reachable from a freshly constructed table (whose
default records are invalid) by lookups and stores, every valid slot's tag is
the low byte of the slot's signature; `lookup` never mutates the arrays; and
`store` re-establishes the invariant on the slot it overwrites. -/
theorem tag_invariant_reachable {E : Type} (ops : EntryOps E) (N : Nat)
    (t : Table E) (hd : ops.valid ops.dflt = false) (hr : Reach ops N t) :
    TagInv ops t ∧
    (∀ h r t', lookup ops N t h = some (r, t') →
      t'.index = t.index ∧ t'.entries = t.entries) ∧
    (∀ e b t', store ops N t e = some (b, t') → TagInv ops t') :=
  ⟨(reach_wf ops N hd t hr).2,
   fun h r t' hlk => lookup_arrays ops N t h r t' hlk,
   fun _e _b t' hst => (reach_wf ops N hd t' (Reach.storeStep hr hst)).2⟩

/-- Witness for C6 on the table reached by one store into a fresh 4-slot
table. -/
theorem tag_invariant_reachable_witness :
    TagInv tops ⟨[0, 1, 0, 0], [⟨0, false, 0⟩, ⟨1, true, 7⟩, ⟨0, false, 0⟩,
      ⟨0, false, 0⟩], ⟨0, 0, 1⟩⟩ ∧
    (∀ h r t', lookup tops 2 ⟨[0, 1, 0, 0], [⟨0, false, 0⟩, ⟨1, true, 7⟩,
        ⟨0, false, 0⟩, ⟨0, false, 0⟩], ⟨0, 0, 1⟩⟩ h = some (r, t') →
      t'.index = (⟨[0, 1, 0, 0], [⟨0, false, 0⟩, ⟨1, true, 7⟩, ⟨0, false, 0⟩,
        ⟨0, false, 0⟩], ⟨0, 0, 1⟩⟩ : Table TEnt).index ∧
      t'.entries = (⟨[0, 1, 0, 0], [⟨0, false, 0⟩, ⟨1, true, 7⟩, ⟨0, false, 0⟩,
        ⟨0, false, 0⟩], ⟨0, 0, 1⟩⟩ : Table TEnt).entries) ∧
    (∀ e b t', store tops 2 ⟨[0, 1, 0, 0], [⟨0, false, 0⟩, ⟨1, true, 7⟩,
        ⟨0, false, 0⟩, ⟨0, false, 0⟩], ⟨0, 0, 1⟩⟩ e = some (b, t') →
      TagInv tops t') :=
  tag_invariant_reachable tops 2
    ⟨[0, 1, 0, 0], [⟨0, false, 0⟩, ⟨1, true, 7⟩, ⟨0, false, 0⟩,
      ⟨0, false, 0⟩], ⟨0, 0, 1⟩⟩ (by decide)
    (@Reach.storeStep TEnt tops 2 (withEntries tops 4)
      ⟨[0, 1, 0, 0], [⟨0, false, 0⟩, ⟨1, true, 7⟩, ⟨0, false, 0⟩,
        ⟨0, false, 0⟩], ⟨0, 0, 1⟩⟩ true ⟨1, true, 7⟩
      (Reach.fresh 4) (by decide))

/-- Little-endian byte encoding of a machine word, `k` bytes wide. -/
def leBytes : Nat → Nat → List Nat
  | 0, _ => []
  | k + 1, x => x % 256 :: leBytes k (x / 256)

/-- Value of a little-endian byte list. -/
def leVal : List Nat → Nat
  | [] => 0
  | b :: bs => b + 256 * leVal bs

lemma length_leBytes : ∀ k x, (leBytes k x).length = k := by
  intro k
  induction k with
  | zero => intro x; rfl
  | succ k ih => intro x; simp [leBytes, ih]

lemma leVal_leBytes : ∀ k x, leVal (leBytes k x) = x % 256 ^ k := by
  intro k
  induction k with
  | zero => intro x; simp [leBytes, leVal, Nat.mod_one]
  | succ k ih =>
    intro x
    rw [pow_succ, Nat.mul_comm, Nat.mod_mul]
    simp only [leBytes, leVal, ih]

/-- The on-disk `Header` (table.rs lines 72-79): `version` then `entries`,
each an 8-byte little-endian word, as produced by reinterpreting the
`#[repr(C)]` struct's memory on a little-endian machine. -/
def headerBytes (version entries : Nat) : List Nat :=
  leBytes 8 version ++ leBytes 8 entries

/-- Opaque byte codec standing for the raw in-memory representation of a
record type: `size` models `size_of::<E>()`, `enc` the bytes of one record,
`dec` the record read back from its bytes.  The memcpy round trip of the Rust
plain-old-data representation gives `dec (enc e) = e` and
`(enc e).length = size`; both are hypotheses where needed. -/
structure EntryCodec (E : Type) where
  size : Nat
  enc : E → List Nat
  dec : List Nat → E

/-- `TranspositionTable::dump` (table.rs lines 152-161): header bytes, then
the raw tag array, then the raw record array, in that order. -/
def dump {E : Type} (cd : EntryCodec E) (t : Table E) : List Nat :=
  headerBytes 1 t.entries.length ++ t.index ++ (t.entries.map cd.enc).flatten

/-- `Read::read_exact` as used at table.rs lines 166, 182 and 183: consume
exactly `n` bytes of the stream or fail. -/
def readBytes (n : Nat) (s : List Nat) : Option (List Nat × List Nat) :=
  if n ≤ s.length then some (s.take n, s.drop n) else none

/-- Split a raw byte blob into `k` records of `cd.size` bytes each (the
in-place reinterpretation of the record array, table.rs lines 183-188). -/
def decodeEntries {E : Type} (cd : EntryCodec E) : Nat → List Nat → List E
  | 0, _ => []
  | k + 1, bs => cd.dec (bs.take cd.size) :: decodeEntries cd k (bs.drop cd.size)

/-- `TranspositionTable::from_reader` (table.rs lines 163-190): read the
16-byte header, reject any version other than 1, allocate a table of the
stored entry count, then read the tag bytes and the record bytes.  All I/O
failures and the version mismatch collapse to `none`.  The byte count of the
record read is `table.entries.len() * size_of_val(&table.entries[0])`
(line 186): evaluating `table.entries[0]` panics when the stored entry count
is zero, modelled by the `count = 0` branch. -/
def from_reader {E : Type} (cd : EntryCodec E) (s : List Nat) :
    Option (Table E) :=
  match readBytes 16 s with
  | none => none
  | some (hdr, s1) =>
    if leVal (hdr.take 8) ≠ 1 then none
    else
      match readBytes (leVal (hdr.drop 8)) s1 with
      | none => none
      | some (idx, s2) =>
        if leVal (hdr.drop 8) = 0 then none
        else
          match readBytes (leVal (hdr.drop 8) * cd.size) s2 with
          | none => none
          | some (eb, _) =>
            some ⟨idx, decodeEntries cd (leVal (hdr.drop 8)) eb, ⟨0, 0, 0⟩⟩

lemma readBytes_append (n : Nat) (l rest : List Nat) (h : l.length = n) :
    readBytes n (l ++ rest) = some (l, rest) := by
  unfold readBytes
  rw [if_pos (by simp [h])]
  rw [List.take_left' h, List.drop_left' h]

lemma flatten_map_length {E : Type} (cd : EntryCodec E)
    (hsz : ∀ e, (cd.enc e).length = cd.size) :
    ∀ es : List E, ((es.map cd.enc).flatten).length = es.length * cd.size := by
  intro es
  induction es with
  | nil => simp
  | cons e es ih =>
    simp only [List.map_cons, List.flatten_cons, List.length_append, ih,
      List.length_cons, hsz]
    ring

lemma decode_encode {E : Type} (cd : EntryCodec E)
    (hsz : ∀ e, (cd.enc e).length = cd.size)
    (hrt : ∀ e, cd.dec (cd.enc e) = e) :
    ∀ es : List E, decodeEntries cd es.length ((es.map cd.enc).flatten) = es := by
  intro es
  induction es with
  | nil => rfl
  | cons e es ih =>
    simp only [List.map_cons, List.flatten_cons, List.length_cons,
      decodeEntries]
    rw [List.take_left' (hsz e), List.drop_left' (hsz e), hrt, ih]

lemma lookup_fst_stats_irrel {E : Type} (ops : EntryOps E) (N : Nat)
    (idx : List Nat) (ents : List E) (s1 s2 : Stats) (h : Nat) :
    (lookup ops N ⟨idx, ents, s1⟩ h).map Prod.fst =
      (lookup ops N ⟨idx, ents, s2⟩ h).map Prod.fst := by
  unfold lookup
  cases lookupGo ops idx ents h h (List.range N) with
  | none => rfl
  | some o => cases o <;> rfl

lemma readBytes_all (n : Nat) (s : List Nat) (h : n = s.length) :
    readBytes n s = some (s, []) := by
  subst h
  unfold readBytes
  rw [if_pos le_rfl, List.take_length, List.drop_length]

/-- `Entry` implementation over `Bool`, used in serialization witnesses. -/
def bops : EntryOps Bool :=
  ⟨fun b => cond b 1 0, fun b => b, fun a b => a && !b, false⟩

/-- One-byte codec for `Bool` records with a total round trip. -/
def bcodec : EntryCodec Bool :=
  ⟨1, fun b => [cond b 1 0], fun bs => bs.getD 0 0 == 1⟩

/-- Counterexample to claim C3 as stated: for the capacity-0 table (which the
public constructors can produce), `from_reader` on the table's own dump panics
instead of yielding a table — reading the record payload evaluates
`size_of_val(&table.entries[0])` on an empty record array.  The claim promises
a restored table with identical arrays for every table. -/
theorem dump_restore_cex :
    from_reader bcodec (dump bcodec (withEntries bops 0)) = none ∧
    (withEntries bops 0).entries.length = 0 := by decide

/-- Claim C3, amended: for every table of positive capacity (with the memcpy
round trip of the record representation as hypotheses), `dump` followed by
`from_reader` yields a table of the same capacity whose tag array and record
array are identical, so every `lookup` returns the same result on the
restored table as on the original. -/
theorem dump_restore_roundtrip {E : Type} (ops : EntryOps E)
    (cd : EntryCodec E) (t : Table E)
    (hcap : 0 < t.entries.length)
    (hwf : t.index.length = t.entries.length)
    (hlen64 : t.entries.length < 2 ^ 64)
    (hsz : ∀ e, (cd.enc e).length = cd.size)
    (hrt : ∀ e, cd.dec (cd.enc e) = e) :
    ∃ t', from_reader cd (dump cd t) = some t' ∧
      t'.index = t.index ∧ t'.entries = t.entries ∧
      ∀ (N h : Nat), (lookup ops N t' h).map Prod.fst =
        (lookup ops N t h).map Prod.fst := by
  obtain ⟨ti, te, ts⟩ := t
  simp only at hcap hwf hlen64 ⊢
  have h256 : (256 : Nat) ^ 8 = 2 ^ 64 := by norm_num
  have hver : leVal (leBytes 8 1) = 1 := by
    rw [leVal_leBytes]
    norm_num
  have hcount : leVal (leBytes 8 te.length) = te.length := by
    rw [leVal_leBytes, h256, Nat.mod_eq_of_lt hlen64]
  have hblob := flatten_map_length cd hsz te
  have h1 : readBytes 16 (dump cd ⟨ti, te, ts⟩) =
      some (headerBytes 1 te.length, ti ++ (te.map cd.enc).flatten) := by
    unfold dump
    simp only
    rw [List.append_assoc]
    exact readBytes_append 16 _ _ (by simp [headerBytes, length_leBytes])
  have htake : (headerBytes 1 te.length).take 8 = leBytes 8 1 :=
    List.take_left' (length_leBytes 8 1)
  have hdrop : (headerBytes 1 te.length).drop 8 = leBytes 8 te.length :=
    List.drop_left' (length_leBytes 8 1)
  have h2 : readBytes te.length (ti ++ (te.map cd.enc).flatten) =
      some (ti, (te.map cd.enc).flatten) :=
    readBytes_append _ _ _ hwf
  have h3 : readBytes (te.length * cd.size) ((te.map cd.enc).flatten) =
      some ((te.map cd.enc).flatten, []) :=
    readBytes_all _ _ hblob.symm
  have hdec := decode_encode cd hsz hrt te
  have hne : te.length ≠ 0 := by omega
  refine ⟨⟨ti, te, ⟨0, 0, 0⟩⟩, ?_, rfl, rfl, ?_⟩
  · unfold from_reader
    rw [h1]
    simp only [htake, hdrop, hver, hcount, ne_eq, not_true_eq_false,
      if_false, h2, hne, if_neg, h3, hdec]
  · intro N h
    exact lookup_fst_stats_irrel ops N ti te ⟨0, 0, 0⟩ ts h

/-- Witness for the amended C3 on a concrete two-slot `Bool` table. -/
theorem dump_restore_roundtrip_witness :
    ∃ t', from_reader bcodec (dump bcodec ⟨[1, 0], [true, false], ⟨3, 2, 1⟩⟩)
        = some t' ∧
      t'.index = [1, 0] ∧ t'.entries = [true, false] ∧
      ∀ (N h : Nat), (lookup bops N t' h).map Prod.fst =
        (lookup bops N ⟨[1, 0], [true, false], ⟨3, 2, 1⟩⟩ h).map Prod.fst :=
  dump_restore_roundtrip bops bcodec ⟨[1, 0], [true, false], ⟨3, 2, 1⟩⟩
    (by decide) (by decide) (by decide) (by decide) (by decide)

/-- `ENTRIES_PER_LOCK` (table.rs line 198). -/
def ENTRIES_PER_LOCK : Nat := 16

/-- `ConcurrentTranspositionTable` (table.rs lines 200-216), the fragment its
sequential behaviour depends on: the same `index` and `entries` arrays, a
`counters` array with one `u32` sequence counter per `ENTRIES_PER_LOCK`
slots, and the cached `len`.  The write mutex, the handle count and the
shared statistics do not affect the sequential results. -/
structure CTable (E : Type) where
  index : List Nat
  entries : List E
  counters : List Nat
  len : Nat
deriving DecidableEq, Repr

/-- `ConcurrentTranspositionTable::with_entries` (table.rs lines 245-256):
default (zero) counters, one per 16 slots. -/
def cwithEntries {E : Type} (ops : EntryOps E) (len : Nat) : CTable E :=
  ⟨List.replicate len 0, List.replicate len ops.dflt,
   List.replicate (len / ENTRIES_PER_LOCK) 0, len⟩

/-- `ConcurrentTranspositionTable::entry` (table.rs lines 297-316), executed
sequentially: the group counter is `counters[i % counters.len()]`; indexing an
empty `counters` array panics (`none`); an odd counter makes the retry loop
yield forever, since no concurrent writer will ever finish (`none`); otherwise
the two counter loads agree and the snapshot is the slot's record. -/
def centry {E : Type} (ops : EntryOps E) (entries : List E)
    (counters : List Nat) (i : Nat) : Option E :=
  if counters.length = 0 then none
  else if (counters.getD (i % counters.length) 0) % 2 = 1 then none
  else some (entries.getD i ops.dflt)

/-- Loop of `ConcurrentTranspositionTable::lookup` (table.rs lines 282-294):
like the single-threaded loop, but the slot snapshot goes through the seqlock
read protocol `entry`, and the probe index is reduced modulo the cached
`self.len`. -/
def clookupGo {E : Type} (ops : EntryOps E) (index : List Nat)
    (entries : List E) (counters : List Nat) (len h base : Nat) :
    List Nat → Option (Option E)
  | [] => some none
  | j :: js =>
    if len = 0 then none
    else
      if index.getD ((base + j) % len) 0 ≠ h % 256 then
        clookupGo ops index entries counters len h base js
      else
        match centry ops entries counters ((base + j) % len) with
        | none => none
        | some e =>
          if ops.valid e = true ∧ hash64 ops e = h then some (some e)
          else clookupGo ops index entries counters len h base js

/-- `ConcurrentTranspositionTable::lookup` (table.rs lines 280-295); the
statistics accumulator is the caller-supplied `&mut Stats`. -/
def clookup {E : Type} (ops : EntryOps E) (N : Nat) (t : CTable E)
    (stats : Stats) (h : Nat) : Option (Option E × Stats) :=
  let s1 : Stats := ⟨stats.lookups + 1, stats.hits, stats.stores⟩
  match clookupGo ops t.index t.entries t.counters t.len h h (List.range N) with
  | none => none
  | some none => some (none, s1)
  | some (some e) => some (some e, ⟨s1.lookups, s1.hits + 1, s1.stores⟩)

/-- Victim-selection loop of `ConcurrentTranspositionTable::store` (table.rs
lines 321-336): textually the same scan as the single-threaded one, executed
directly against the live arrays under the global write lock. -/
def cstoreGo {E : Type} (ops : EntryOps E) (entries : List E) (eh base : Nat) :
    Option Nat → List Nat → Option (Option Nat)
  | worst, [] => some worst
  | worst, j :: js =>
    if entries.length = 0 then none
    else
      let i := (base + j) % entries.length
      let ei := entries.getD i ops.dflt
      if ¬ ops.valid ei = true ∨ hash64 ops ei = eh then
        some (some i)
      else
        match worst with
        | some w =>
          if ops.better_than (entries.getD w ops.dflt) ei = true then
            cstoreGo ops entries eh base (some i) js
          else
            cstoreGo ops entries eh base (some w) js
        | none => cstoreGo ops entries eh base (some i) js

/-- `ConcurrentTranspositionTable::store` (table.rs lines 318-357), executed
sequentially: victim scan, then on accept the victim group's counter is
incremented twice (each `fetch_add(1)` wraps modulo `2^32`) around the tag and
record writes; `counters[idx % counters.len()]` panics when the counters
array is empty (`none`).  Rejection touches nothing. -/
def cstore {E : Type} (ops : EntryOps E) (N : Nat) (t : CTable E)
    (stats : Stats) (e : E) : Option (Bool × CTable E × Stats) :=
  let eh := hash64 ops e
  match cstoreGo ops t.entries eh eh none (List.range N) with
  | none => none
  | some none => none
  | some (some idx) =>
    if ¬ ops.valid (t.entries.getD idx ops.dflt) = true ∨
        ops.better_than e (t.entries.getD idx ops.dflt) = true then
      if t.counters.length = 0 then none
      else
        some (true,
          ⟨t.index.set idx (ops.hash e % 256),
           t.entries.set idx e,
           t.counters.set (idx % t.counters.length)
             ((t.counters.getD (idx % t.counters.length) 0 + 2) % 2 ^ 32),
           t.len⟩,
          ⟨stats.lookups, stats.hits, stats.stores + 1⟩)
    else some (false, t, stats)

lemma cstoreGo_eq_storeGo {E : Type} (ops : EntryOps E) (entries : List E)
    (eh base : Nat) :
    ∀ (js : List Nat) (w : Option Nat),
      cstoreGo ops entries eh base w js = storeGo ops entries eh base w js := by
  intro js
  induction js with
  | nil => intro w; rfl
  | cons j js ih =>
    intro w
    by_cases h0 : entries.length = 0
    · simp [cstoreGo, storeGo, h0]
    · by_cases hc : ¬ ops.valid
            (entries.getD ((base + j) % entries.length) ops.dflt) = true ∨
          hash64 ops (entries.getD ((base + j) % entries.length) ops.dflt) = eh
      · simp only [cstoreGo, storeGo, if_neg h0, if_pos hc]
      · cases w with
        | none =>
          simp only [cstoreGo, storeGo, if_neg h0, if_neg hc]
          exact ih _
        | some wv =>
          simp only [cstoreGo, storeGo, if_neg h0, if_neg hc]
          by_cases hb : ops.better_than (entries.getD wv ops.dflt)
              (entries.getD ((base + j) % entries.length) ops.dflt) = true
          · simp only [if_pos hb]; exact ih _
          · simp only [if_neg hb]; exact ih _

/-- Counterexample to claim C4 as stated: on a 32-slot table the counters
array has length 2; for slot 16 the claim predicts counter
`floor(16/16) = 1`, which here is odd (a writer would appear active), yet the
read protocol returns a snapshot — because the code consults counter
`16 % 2 = 0`, which is even.  The counter actually used is
`i % counters.len()`, a striped assignment, not the contiguous-group one. -/
theorem counter_group_cex :
    centry tops (List.replicate 32 tops.dflt) [0, 1] 16 = some tops.dflt ∧
    (16 : Nat) / ENTRIES_PER_LOCK = 1 ∧ ([0, 1].getD 1 0) % 2 = 1 := by
  decide

/-- Claim C4, amended: the sequence counter consulted by the read protocol
for slot `i`, and incremented (twice, wrapping modulo `2^32`) by the write
protocol around a write to its victim slot, is counter number
`i % counters.len()` (with `counters.len() = floor(len/16)` at construction),
not the contiguous-group counter `floor(i/16)`. -/
theorem counter_group_amended {E : Type} (ops : EntryOps E) (N : Nat)
    (t : CTable E) (i : Nat) (hc : ¬ t.counters.length = 0) :
    (t.counters.getD (i % t.counters.length) 0 % 2 = 0 →
      centry ops t.entries t.counters i = some (t.entries.getD i ops.dflt)) ∧
    (t.counters.getD (i % t.counters.length) 0 % 2 = 1 →
      centry ops t.entries t.counters i = none) ∧
    ((cwithEntries ops t.len).counters.length = t.len / 16) ∧
    (∀ stats e t' s', cstore ops N t stats e = some (true, t', s') →
      ∃ idx, idx < t.entries.length ∧
        t'.counters = t.counters.set (idx % t.counters.length)
          ((t.counters.getD (idx % t.counters.length) 0 + 2) % 2 ^ 32) ∧
        t'.index = t.index.set idx (ops.hash e % 256) ∧
        t'.entries = t.entries.set idx e) := by
  refine ⟨?_, ?_, by simp [cwithEntries, ENTRIES_PER_LOCK], ?_⟩
  · intro hev
    unfold centry
    rw [if_neg hc, if_neg (by omega)]
  · intro hodd
    unfold centry
    rw [if_neg hc, if_pos hodd]
  · intro stats e t' s' hst
    unfold cstore at hst
    cases hgo : cstoreGo ops t.entries (hash64 ops e) (hash64 ops e) none
        (List.range N) with
    | none => simp [hgo] at hst
    | some w =>
      cases w with
      | none => simp [hgo] at hst
      | some idx =>
        simp only [hgo] at hst
        split at hst
        · simp only [Option.some.injEq, Prod.mk.injEq] at hst
          rw [cstoreGo_eq_storeGo] at hgo
          rcases storeGo_some_spec ops t.entries (hash64 ops e)
              (hash64 ops e) (List.range N) none idx hgo with
            ⟨hlen, j, hj, hidx⟩ | hw
          · exact ⟨idx, hidx ▸ Nat.mod_lt _ hlen,
              by rw [← hst.2.1], by rw [← hst.2.1], by rw [← hst.2.1]⟩
          · simp at hw
        · simp at hst

/-- Witness for the amended C4 on a 32-slot table with counters `[4, 1]`:
slot 16 consults counter 0 (even, snapshot succeeds), slot 1 consults
counter 1 (odd, read blocked), and an accepted store bumps counter
`idx % 2` by two. -/
theorem counter_group_amended_witness :
    ((⟨List.replicate 32 0, List.replicate 32 tops.dflt, [4, 1], 32⟩ :
        CTable TEnt).counters.getD
        (16 % (⟨List.replicate 32 0, List.replicate 32 tops.dflt, [4, 1], 32⟩ :
        CTable TEnt).counters.length) 0 % 2 = 0 →
      centry tops (⟨List.replicate 32 0, List.replicate 32 tops.dflt, [4, 1],
          32⟩ : CTable TEnt).entries
        (⟨List.replicate 32 0, List.replicate 32 tops.dflt, [4, 1], 32⟩ :
          CTable TEnt).counters 16 =
        some ((⟨List.replicate 32 0, List.replicate 32 tops.dflt, [4, 1],
          32⟩ : CTable TEnt).entries.getD 16 tops.dflt)) ∧
    ((⟨List.replicate 32 0, List.replicate 32 tops.dflt, [4, 1], 32⟩ :
        CTable TEnt).counters.getD
        (16 % (⟨List.replicate 32 0, List.replicate 32 tops.dflt, [4, 1], 32⟩ :
        CTable TEnt).counters.length) 0 % 2 = 1 →
      centry tops (⟨List.replicate 32 0, List.replicate 32 tops.dflt, [4, 1],
          32⟩ : CTable TEnt).entries
        (⟨List.replicate 32 0, List.replicate 32 tops.dflt, [4, 1], 32⟩ :
          CTable TEnt).counters 16 = none) ∧
    ((cwithEntries tops (⟨List.replicate 32 0, List.replicate 32 tops.dflt,
        [4, 1], 32⟩ : CTable TEnt).len).counters.length =
      (⟨List.replicate 32 0, List.replicate 32 tops.dflt, [4, 1], 32⟩ :
        CTable TEnt).len / 16) ∧
    (∀ stats e t' s', cstore tops 2
        (⟨List.replicate 32 0, List.replicate 32 tops.dflt, [4, 1], 32⟩ :
          CTable TEnt) stats e = some (true, t', s') →
      ∃ idx, idx < (⟨List.replicate 32 0, List.replicate 32 tops.dflt, [4, 1],
          32⟩ : CTable TEnt).entries.length ∧
        t'.counters = (⟨List.replicate 32 0, List.replicate 32 tops.dflt,
          [4, 1], 32⟩ : CTable TEnt).counters.set (idx % 2)
          (((⟨List.replicate 32 0, List.replicate 32 tops.dflt, [4, 1], 32⟩ :
            CTable TEnt).counters.getD (idx % 2) 0 + 2) % 2 ^ 32) ∧
        t'.index = (⟨List.replicate 32 0, List.replicate 32 tops.dflt, [4, 1],
          32⟩ : CTable TEnt).index.set idx (tops.hash e % 256) ∧
        t'.entries = (⟨List.replicate 32 0, List.replicate 32 tops.dflt,
          [4, 1], 32⟩ : CTable TEnt).entries.set idx e) :=
  counter_group_amended tops 2
    ⟨List.replicate 32 0, List.replicate 32 tops.dflt, [4, 1], 32⟩ 16
    (by decide)

/-- One table operation of a sequential run. -/
inductive Op (E : Type) where
  | look : Nat → Op E
  | put : E → Op E
deriving DecidableEq, Repr

/-- The visible result of one operation. -/
inductive Res (E : Type) where
  | found : Option E → Res E
  | stored : Bool → Res E
deriving DecidableEq, Repr

/-- Run a list of operations on the single-threaded table; `none` as soon as
one operation panics. -/
def runSeq {E : Type} (ops : EntryOps E) (N : Nat) :
    Table E → List (Op E) → Option (List (Res E) × Table E)
  | t, [] => some ([], t)
  | t, Op.look h :: rest =>
    match lookup ops N t h with
    | none => none
    | some (r, t') =>
      (runSeq ops N t' rest).map (fun p => (Res.found r :: p.1, p.2))
  | t, Op.put e :: rest =>
    match store ops N t e with
    | none => none
    | some (b, t') =>
      (runSeq ops N t' rest).map (fun p => (Res.stored b :: p.1, p.2))

/-- Run a list of operations on the concurrent table through one handle's
statistics accumulator, single-threaded. -/
def crunSeq {E : Type} (ops : EntryOps E) (N : Nat) :
    CTable E → Stats → List (Op E) → Option (List (Res E) × CTable E)
  | ct, _, [] => some ([], ct)
  | ct, s, Op.look h :: rest =>
    match clookup ops N ct s h with
    | none => none
    | some (r, s') =>
      (crunSeq ops N ct s' rest).map (fun p => (Res.found r :: p.1, p.2))
  | ct, s, Op.put e :: rest =>
    match cstore ops N ct s e with
    | none => none
    | some (b, ct', s') =>
      (crunSeq ops N ct' s' rest).map (fun p => (Res.stored b :: p.1, p.2))

/-- Simulation relation between a single-threaded table and the sequential
state of a concurrent table: identical arrays, consistent cached length,
positive capacity, a nonempty counters array, and all counters even (no
writer mid-flight). -/
def Rel {E : Type} (t : Table E) (ct : CTable E) : Prop :=
  ct.index = t.index ∧ ct.entries = t.entries ∧ ct.len = t.entries.length ∧
  0 < t.entries.length ∧ 0 < ct.counters.length ∧
  ∀ k, (ct.counters.getD k 0) % 2 = 0

/-- Agreement of the two runs: same panic behaviour, same result list, same
final tag and record arrays. -/
def agrees {E : Type} (x : Option (List (Res E) × Table E))
    (y : Option (List (Res E) × CTable E)) : Prop :=
  match x, y with
  | some (rs, tf), some (rs', cf) =>
    rs = rs' ∧ cf.index = tf.index ∧ cf.entries = tf.entries
  | none, none => True
  | _, _ => False

lemma clookupGo_eq {E : Type} (ops : EntryOps E) (index : List Nat)
    (entries : List E) (counters : List Nat) (len h base : Nat)
    (hlen : len = entries.length) (h0 : 0 < entries.length)
    (hcnt : ¬ counters.length = 0)
    (hev : ∀ k, (counters.getD k 0) % 2 = 0) :
    ∀ js, clookupGo ops index entries counters len h base js =
      lookupGo ops index entries h base js := by
  subst hlen
  intro js
  induction js with
  | nil => rfl
  | cons j js ih =>
    have hne : ¬ entries.length = 0 := by omega
    have hcent : centry ops entries counters ((base + j) % entries.length) =
        some (entries.getD ((base + j) % entries.length) ops.dflt) := by
      unfold centry
      rw [if_neg hcnt, if_neg (by
        have := hev ((base + j) % entries.length % counters.length)
        omega)]
    by_cases htag : index.getD ((base + j) % entries.length) 0 ≠ h % 256
    · simp only [clookupGo, lookupGo, if_neg hne, if_pos htag]
      exact ih
    · simp only [clookupGo, lookupGo, if_neg hne, if_neg htag, hcent]
      by_cases hslot : ops.valid (entries.getD ((base + j) % entries.length)
            ops.dflt) = true ∧
          hash64 ops (entries.getD ((base + j) % entries.length) ops.dflt) = h
      · rw [if_pos hslot, if_pos hslot]
      · rw [if_neg hslot, if_neg hslot]
        exact ih

lemma lookupGo_ne_none {E : Type} (ops : EntryOps E) (index : List Nat)
    (entries : List E) (h base : Nat) (h0 : 0 < entries.length) :
    ∀ js, lookupGo ops index entries h base js ≠ none := by
  intro js
  induction js with
  | nil => simp [lookupGo]
  | cons j js ih =>
    have hne : ¬ entries.length = 0 := by omega
    by_cases htag : index.getD ((base + j) % entries.length) 0 ≠ h % 256
    · simpa only [lookupGo, if_neg hne, if_pos htag] using ih
    · by_cases hslot : ops.valid (entries.getD ((base + j) % entries.length)
            ops.dflt) = true ∧
          hash64 ops (entries.getD ((base + j) % entries.length) ops.dflt) = h
      · simp only [lookupGo, if_neg hne, if_neg htag, if_pos hslot]
        exact fun hx => Option.noConfusion hx
      · simpa only [lookupGo, if_neg hne, if_neg htag, if_neg hslot] using ih

lemma agrees_step {E : Type} (x : Option (List (Res E) × Table E))
    (y : Option (List (Res E) × CTable E)) (r : Res E) (hxy : agrees x y) :
    agrees (x.map (fun p => (r :: p.1, p.2)))
      (y.map (fun p => (r :: p.1, p.2))) := by
  cases x with
  | none =>
    cases y with
    | none => trivial
    | some q => obtain ⟨rs, cf⟩ := q; exact hxy.elim
  | some p =>
    obtain ⟨rs, tf⟩ := p
    cases y with
    | none => exact hxy.elim
    | some q =>
      obtain ⟨rs', cf⟩ := q
      obtain ⟨hrs, hi, he⟩ := hxy
      exact ⟨by rw [hrs], hi, he⟩

lemma even_counters_set (counters : List Nat) (idx : Nat)
    (hcnt : 0 < counters.length)
    (hev : ∀ k, (counters.getD k 0) % 2 = 0) :
    ∀ k, ((counters.set (idx % counters.length)
      ((counters.getD (idx % counters.length) 0 + 2) % 2 ^ 32)).getD k 0) % 2
      = 0 := by
  intro k
  by_cases hk : k = idx % counters.length
  · subst hk
    rw [getD_set_self _ _ _ _ (Nat.mod_lt _ hcnt)]
    have h2 : ((counters.getD (idx % counters.length) 0 + 2) % 2 ^ 32) % 2 =
        (counters.getD (idx % counters.length) 0 + 2) % 2 :=
      Nat.mod_mod_of_dvd _ ⟨2 ^ 31, by norm_num⟩
    have h3 := hev (idx % counters.length)
    omega
  · rw [getD_set_of_ne _ _ _ _ _ (fun hh => hk hh.symm)]
    exact hev k

lemma run_equiv {E : Type} (ops : EntryOps E) (N : Nat) :
    ∀ (l : List (Op E)) (t : Table E) (ct : CTable E) (s : Stats),
      Rel t ct → agrees (runSeq ops N t l) (crunSeq ops N ct s l) := by
  intro l
  induction l with
  | nil =>
    intro t ct s hrel
    exact ⟨rfl, hrel.1, hrel.2.1⟩
  | cons op rest ih =>
    intro t ct s hrel
    obtain ⟨hI, hE, hL, hpos, hcnt, hev⟩ := hrel
    have hcnt0 : ¬ ct.counters.length = 0 := by omega
    cases op with
    | look h =>
      cases hgo : lookupGo ops t.index t.entries h h (List.range N) with
      | none =>
        exact absurd hgo (lookupGo_ne_none ops t.index t.entries h h hpos
          (List.range N))
      | some o =>
        have hcgo : clookupGo ops ct.index ct.entries ct.counters ct.len h h
            (List.range N) = some o := by
          rw [hI, hE, hL,
            clookupGo_eq ops t.index t.entries ct.counters t.entries.length
              h h rfl hpos hcnt0 hev]
          exact hgo
        cases o with
        | none =>
          have h1 : lookup ops N t h = some (none, ⟨t.index, t.entries,
              ⟨t.stats.lookups + 1, t.stats.hits, t.stats.stores⟩⟩) := by
            unfold lookup
            simp only [hgo]
          have h2 : clookup ops N ct s h = some (none,
              ⟨s.lookups + 1, s.hits, s.stores⟩) := by
            unfold clookup
            simp only [hcgo]
          unfold runSeq crunSeq
          rw [h1, h2]
          exact agrees_step _ _ (Res.found none)
            (ih _ _ _ ⟨hI, hE, hL, hpos, hcnt, hev⟩)
        | some e0 =>
          have h1 : lookup ops N t h = some (some e0, ⟨t.index, t.entries,
              ⟨t.stats.lookups + 1, t.stats.hits + 1, t.stats.stores⟩⟩) := by
            unfold lookup
            simp only [hgo]
          have h2 : clookup ops N ct s h = some (some e0,
              ⟨s.lookups + 1, s.hits + 1, s.stores⟩) := by
            unfold clookup
            simp only [hcgo]
          unfold runSeq crunSeq
          rw [h1, h2]
          exact agrees_step _ _ (Res.found (some e0))
            (ih _ _ _ ⟨hI, hE, hL, hpos, hcnt, hev⟩)
    | put e =>
      have hcs : cstoreGo ops ct.entries (hash64 ops e) (hash64 ops e) none
          (List.range N) = storeGo ops t.entries (hash64 ops e) (hash64 ops e)
          none (List.range N) := by
        rw [hE, cstoreGo_eq_storeGo]
      cases hgo : storeGo ops t.entries (hash64 ops e) (hash64 ops e) none
          (List.range N) with
      | none =>
        have h1 : store ops N t e = none := by
          unfold store
          simp only [hgo]
        have h2 : cstore ops N ct s e = none := by
          unfold cstore
          simp only [hcs, hgo]
        unfold runSeq crunSeq
        rw [h1, h2]
        trivial
      | some w =>
        cases w with
        | none =>
          have h1 : store ops N t e = none := by
            unfold store
            simp only [hgo]
          have h2 : cstore ops N ct s e = none := by
            unfold cstore
            simp only [hcs, hgo]
          unfold runSeq crunSeq
          rw [h1, h2]
          trivial
        | some idx =>
          by_cases hacc : ¬ ops.valid (t.entries.getD idx ops.dflt) = true ∨
              ops.better_than e (t.entries.getD idx ops.dflt) = true
          · have h1 : store ops N t e = some (true,
                ⟨t.index.set idx (ops.hash e % 256), t.entries.set idx e,
                 ⟨t.stats.lookups, t.stats.hits, t.stats.stores + 1⟩⟩) := by
              unfold store
              simp only [hgo, if_pos hacc]
            have hacc' : ¬ ops.valid (ct.entries.getD idx ops.dflt) = true ∨
                ops.better_than e (ct.entries.getD idx ops.dflt) = true := by
              rw [hE]
              exact hacc
            have h2 : cstore ops N ct s e = some (true,
                ⟨ct.index.set idx (ops.hash e % 256), ct.entries.set idx e,
                 ct.counters.set (idx % ct.counters.length)
                   ((ct.counters.getD (idx % ct.counters.length) 0 + 2)
                     % 2 ^ 32), ct.len⟩,
                ⟨s.lookups, s.hits, s.stores + 1⟩) := by
              unfold cstore
              simp only [hcs, hgo, if_pos hacc', if_neg hcnt0]
            have hrel' : Rel
                ⟨t.index.set idx (ops.hash e % 256), t.entries.set idx e,
                 ⟨t.stats.lookups, t.stats.hits, t.stats.stores + 1⟩⟩
                ⟨ct.index.set idx (ops.hash e % 256), ct.entries.set idx e,
                 ct.counters.set (idx % ct.counters.length)
                   ((ct.counters.getD (idx % ct.counters.length) 0 + 2)
                     % 2 ^ 32), ct.len⟩ := by
              refine ⟨by rw [hI], by rw [hE], ?_, ?_, ?_, ?_⟩
              · simp only [List.length_set]
                exact hL
              · simp only [List.length_set]
                exact hpos
              · simp only [List.length_set]
                exact hcnt
              · exact even_counters_set ct.counters idx hcnt hev
            unfold runSeq crunSeq
            rw [h1, h2]
            exact agrees_step _ _ (Res.stored true) (ih _ _ _ hrel')
          · have h1 : store ops N t e = some (false, t) := by
              unfold store
              simp only [hgo, if_neg hacc]
            have hacc' : ¬ (¬ ops.valid (ct.entries.getD idx ops.dflt) = true ∨
                ops.better_than e (ct.entries.getD idx ops.dflt) = true) := by
              rw [hE]
              exact hacc
            have h2 : cstore ops N ct s e = some (false, ct, s) := by
              unfold cstore
              simp only [hcs, hgo, if_neg hacc']
            unfold runSeq crunSeq
            rw [h1, h2]
            exact agrees_step _ _ (Res.stored false)
              (ih _ _ _ ⟨hI, hE, hL, hpos, hcnt, hev⟩)

/-- Counterexample to claim C7 as stated: on a table of capacity 1 the two
implementations diverge — the single-threaded `store` succeeds, while the
concurrent `store`, run alone with no interleaving, accepts the same record
and then panics indexing its empty counters array
(`counters[idx % counters.len()]` with `counters.len() = 1 / 16 = 0`). -/
theorem sequential_equivalence_cex :
    store tops 4 (withEntries tops 1) ⟨3, true, 1⟩ =
      some (true, ⟨[3], [⟨3, true, 1⟩], ⟨0, 0, 1⟩⟩) ∧
    cstore tops 4 (cwithEntries tops 1) ⟨0, 0, 0⟩ ⟨3, true, 1⟩ = none := by
  decide

/-- Claim C7, amended: executed sequentially on fresh tables of equal
capacity at least 16 (so the concurrent table has at least one sequence
counter), `ConcurrentTranspositionTable::lookup/store` return the same
results as `TranspositionTable::lookup/store` on every operation sequence,
panic in the same places, and leave identical tag and record arrays. -/
theorem sequential_equivalence {E : Type} (ops : EntryOps E) (N len : Nat)
    (hlen : 16 ≤ len) (l : List (Op E)) :
    agrees (runSeq ops N (withEntries ops len) l)
      (crunSeq ops N (cwithEntries ops len) ⟨0, 0, 0⟩ l) := by
  apply run_equiv
  refine ⟨rfl, rfl, by simp [cwithEntries, withEntries], ?_, ?_, ?_⟩
  · simp [withEntries]
    omega
  · simp only [cwithEntries, List.length_replicate]
    have h16 : ENTRIES_PER_LOCK = 16 := rfl
    rw [h16]
    omega
  · intro k
    exact congrArg (· % 2) (getD_replicate (len / ENTRIES_PER_LOCK) k 0)

/-- Witness for the amended C7: a store, a hitting lookup and a missing
lookup on fresh tables of capacity 16. -/
theorem sequential_equivalence_witness :
    agrees
      (runSeq tops 4 (withEntries tops 16)
        [Op.put ⟨5, true, 1⟩, Op.look 5, Op.look 6])
      (crunSeq tops 4 (cwithEntries tops 16) ⟨0, 0, 0⟩
        [Op.put ⟨5, true, 1⟩, Op.look 5, Op.look 6]) :=
  sequential_equivalence tops 4 16 (by decide)
    [Op.put ⟨5, true, 1⟩, Op.look 5, Op.look 6]

/-- Claim C10: the public constructors do not enforce a minimum capacity, and
below the minimum every probing operation panics.  On a single-threaded table
of capacity 0 (e.g. from `with_memory` with a budget below one record
footprint `1 + size_of::<E>()`, or `with_entries(0)`) every `lookup` and
every `store` panics on remainder-by-zero when `N > 0`; on a concurrent table
of capacity below 16 the counters array is empty, so any lookup whose tag
pre-filter matches (e.g. any signature with low byte 0 against the fresh
all-zero tags) and any accepted store (e.g. any store into the fresh
all-invalid table) panics indexing the counters.  Hence the operations are
total only from capacity 1 (single-threaded) resp. 16 (concurrent) up. -/
theorem small_capacity_panics {E : Type} (ops : EntryOps E)
    (N h sizeE bytes len : Nat) (e : E)
    (hN : 0 < N) (hlen : len < 16) (hbytes : bytes < 1 + sizeE)
    (hd : ops.valid ops.dflt = false) (htag : h % 256 = 0) :
    withMemory ops sizeE bytes = withEntries ops 0 ∧
    lookup ops N (withEntries ops 0) h = none ∧
    store ops N (withEntries ops 0) e = none ∧
    clookup ops N (cwithEntries ops len) ⟨0, 0, 0⟩ h = none ∧
    cstore ops N (cwithEntries ops len) ⟨0, 0, 0⟩ e = none := by
  obtain ⟨js, hr⟩ := range_of_pos N hN
  have hz : (withEntries ops 0).entries.length = 0 := by simp [withEntries]
  have hcnt0 : (List.replicate (len / ENTRIES_PER_LOCK) (0 : Nat)).length
      = 0 := by
    have h16 : ENTRIES_PER_LOCK = 16 := rfl
    simp [h16, Nat.div_eq_of_lt hlen]
  refine ⟨?_, ?_, ?_, ?_, ?_⟩
  · unfold withMemory
    rw [Nat.div_eq_of_lt hbytes]
  · unfold lookup
    rw [hr]
    simp only [lookupGo, if_pos hz]
  · unfold store
    rw [hr]
    simp only [storeGo, if_pos hz]
  · have hgo : clookupGo ops (cwithEntries ops len).index
        (cwithEntries ops len).entries (cwithEntries ops len).counters
        (cwithEntries ops len).len h h (0 :: js) = none := by
      rcases Nat.eq_zero_or_pos len with h0 | hpos
      · subst h0
        simp [clookupGo, cwithEntries]
      · have hne : ¬ (cwithEntries ops len).len = 0 := by
          simp only [cwithEntries]
          omega
        have htg : ¬ ((cwithEntries ops len).index.getD
            ((h + 0) % (cwithEntries ops len).len) 0 ≠ h % 256) := by
          simp [cwithEntries, htag, getD_replicate]
        have hcent : centry ops (cwithEntries ops len).entries
            (cwithEntries ops len).counters
            ((h + 0) % (cwithEntries ops len).len) = none := by
          unfold centry
          rw [if_pos (by simp only [cwithEntries]; exact hcnt0)]
        simp only [clookupGo, if_neg hne, if_neg htg, hcent]
    unfold clookup
    rw [hr]
    simp only [hgo]
  · rcases Nat.eq_zero_or_pos len with h0 | hpos
    · subst h0
      have hgo : cstoreGo ops (cwithEntries ops 0).entries (hash64 ops e)
          (hash64 ops e) none (0 :: js) = none := by
        simp [cstoreGo, cwithEntries]
      unfold cstore
      rw [hr]
      simp only [hgo]
    · have hne : ¬ (cwithEntries ops len).entries.length = 0 := by
        simp only [cwithEntries, List.length_replicate]
        omega
      have hinv : ¬ ops.valid ((cwithEntries ops len).entries.getD
          ((hash64 ops e + 0) % (cwithEntries ops len).entries.length)
          ops.dflt) = true ∨
          hash64 ops ((cwithEntries ops len).entries.getD
          ((hash64 ops e + 0) % (cwithEntries ops len).entries.length)
          ops.dflt) = hash64 ops e := by
        left
        simp only [cwithEntries, getD_replicate, hd]
        simp
      have hgo : cstoreGo ops (cwithEntries ops len).entries (hash64 ops e)
          (hash64 ops e) none (0 :: js) = some (some ((hash64 ops e + 0) %
            (cwithEntries ops len).entries.length)) := by
        simp only [cstoreGo, if_neg hne, if_pos hinv]
      unfold cstore
      rw [hr]
      simp only [hgo]
      rw [if_pos (Or.inl (by
        simp only [cwithEntries, getD_replicate, hd]
        simp))]
      rw [if_pos (by simp only [cwithEntries]; exact hcnt0)]

/-- Witness for C10 at concrete inputs: budget 10 bytes for 24-byte records,
concurrent capacity 5, signature 512 (low byte 0). -/
theorem small_capacity_panics_witness :
    withMemory tops 24 10 = withEntries tops 0 ∧
    lookup tops 4 (withEntries tops 0) 512 = none ∧
    store tops 4 (withEntries tops 0) ⟨1, true, 1⟩ = none ∧
    clookup tops 4 (cwithEntries tops 5) ⟨0, 0, 0⟩ 512 = none ∧
    cstore tops 4 (cwithEntries tops 5) ⟨0, 0, 0⟩ ⟨1, true, 1⟩ = none :=
  small_capacity_panics tops 4 512 24 10 5 ⟨1, true, 1⟩ (by decide)
    (by decide) (by decide) (by decide) (by decide)

end TTab
